import Mathlib

/-!
Verification of the srx symbol-ranking compressor core (src/main.rs).

The Rust source is shallowly embedded: 32-bit and 64-bit machine words are
natural numbers together with explicit reductions `% 2 ^ 32` / `% 2 ^ 64`
at the points where the source wraps, signed 64-bit intermediates are
integers with arithmetic right shift rendered as `Int.fdiv` by a power of
two, and fallible or panicking code returns its state together with an
optional error tag marking the assertion that fired.
-/

namespace Srx

set_option maxRecDepth 100000

/-- The constant table `MULTIPLIER: [u32; 256]` of src/main.rs lines 28-61,
transcribed verbatim. -/
def MULTIPLIER : List Nat := [
  0x80000000, 0x55555555, 0x40000000, 0x33333333, 0x2AAAAAAA, 0x24924924, 0x20000000, 0x1C71C71C,
  0x19999999, 0x1745D174, 0x15555555, 0x13B13B13, 0x12492492, 0x11111111, 0x10000000, 0x0F0F0F0F,
  0x0E38E38E, 0x0D79435E, 0x0CCCCCCC, 0x0C30C30C, 0x0BA2E8BA, 0x0B21642C, 0x0AAAAAAA, 0x0A3D70A3,
  0x09D89D89, 0x097B425E, 0x09249249, 0x08D3DCB0, 0x08888888, 0x08421084, 0x08000000, 0x07C1F07C,
  0x07878787, 0x07507507, 0x071C71C7, 0x06EB3E45, 0x06BCA1AF, 0x06906906, 0x06666666, 0x063E7063,
  0x06186186, 0x05F417D0, 0x05D1745D, 0x05B05B05, 0x0590B216, 0x0572620A, 0x05555555, 0x05397829,
  0x051EB851, 0x05050505, 0x04EC4EC4, 0x04D4873E, 0x04BDA12F, 0x04A7904A, 0x04924924, 0x047DC11F,
  0x0469EE58, 0x0456C797, 0x04444444, 0x04325C53, 0x04210842, 0x04104104, 0x04000000, 0x03F03F03,
  0x03E0F83E, 0x03D22635, 0x03C3C3C3, 0x03B5CC0E, 0x03A83A83, 0x039B0AD1, 0x038E38E3, 0x0381C0E0,
  0x03759F22, 0x0369D036, 0x035E50D7, 0x03531DEC, 0x03483483, 0x033D91D2, 0x03333333, 0x0329161F,
  0x031F3831, 0x03159721, 0x030C30C3, 0x03030303, 0x02FA0BE8, 0x02F14990, 0x02E8BA2E, 0x02E05C0B,
  0x02D82D82, 0x02D02D02, 0x02C8590B, 0x02C0B02C, 0x02B93105, 0x02B1DA46, 0x02AAAAAA, 0x02A3A0FD,
  0x029CBC14, 0x0295FAD4, 0x028F5C28, 0x0288DF0C, 0x02828282, 0x027C4597, 0x02762762, 0x02702702,
  0x026A439F, 0x02647C69, 0x025ED097, 0x02593F69, 0x0253C825, 0x024E6A17, 0x02492492, 0x0243F6F0,
  0x023EE08F, 0x0239E0D5, 0x0234F72C, 0x02302302, 0x022B63CB, 0x0226B902, 0x02222222, 0x021D9EAD,
  0x02192E29, 0x0214D021, 0x02108421, 0x020C49BA, 0x02082082, 0x02040810, 0x02000000, 0x01FC07F0,
  0x01F81F81, 0x01F44659, 0x01F07C1F, 0x01ECC07B, 0x01E9131A, 0x01E573AC, 0x01E1E1E1, 0x01DE5D6E,
  0x01DAE607, 0x01D77B65, 0x01D41D41, 0x01D0CB58, 0x01CD8568, 0x01CA4B30, 0x01C71C71, 0x01C3F8F0,
  0x01C0E070, 0x01BDD2B8, 0x01BACF91, 0x01B7D6C3, 0x01B4E81B, 0x01B20364, 0x01AF286B, 0x01AC5701,
  0x01A98EF6, 0x01A6D01A, 0x01A41A41, 0x01A16D3F, 0x019EC8E9, 0x019C2D14, 0x01999999, 0x01970E4F,
  0x01948B0F, 0x01920FB4, 0x018F9C18, 0x018D3018, 0x018ACB90, 0x01886E5F, 0x01861861, 0x0183C977,
  0x01818181, 0x017F405F, 0x017D05F4, 0x017AD220, 0x0178A4C8, 0x01767DCE, 0x01745D17, 0x01724287,
  0x01702E05, 0x016E1F76, 0x016C16C1, 0x016A13CD, 0x01681681, 0x01661EC6, 0x01642C85, 0x01623FA7,
  0x01605816, 0x015E75BB, 0x015C9882, 0x015AC056, 0x0158ED23, 0x01571ED3, 0x01555555, 0x01539094,
  0x0151D07E, 0x01501501, 0x014E5E0A, 0x014CAB88, 0x014AFD6A, 0x0149539E, 0x0147AE14, 0x01460CBC,
  0x01446F86, 0x0142D662, 0x01414141, 0x013FB013, 0x013E22CB, 0x013C995A, 0x013B13B1, 0x013991C2,
  0x01381381, 0x013698DF, 0x013521CF, 0x0133AE45, 0x01323E34, 0x0130D190, 0x012F684B, 0x012E025C,
  0x012C9FB4, 0x012B404A, 0x0129E412, 0x01288B01, 0x0127350B, 0x0125E227, 0x01249249, 0x01234567,
  0x0121FB78, 0x0120B470, 0x011F7047, 0x011E2EF3, 0x011CF06A, 0x011BB4A4, 0x011A7B96, 0x01194538,
  0x01181181, 0x0116E068, 0x0115B1E5, 0x011485F0, 0x01135C81, 0x0112358E, 0x01111111, 0x010FEF01,
  0x010ECF56, 0x010DB20A, 0x010C9714, 0x010B7E6E, 0x010A6810, 0x010953F3, 0x01084210, 0x01073260,
  0x010624DD, 0x0105197F, 0x01041041, 0x0103091B, 0x01020408, 0x01010101, 0x01000000, 0x00FF00FF]

/-- Array lookup `MULTIPLIER[count]`; the source only indexes it with
`count ≤ 255`, where the default branch is unreachable. -/
def multiplier (i : Nat) : Nat := MULTIPLIER.getD i 0

/-- One step of `BitPrediction::update` (src/main.rs lines 77-94) on the
packed 32-bit state word.  Returns the new state together with the value the
method returns, namely the prediction held before the update. -/
def BitPrediction.update (state bit : Nat) : Nat × Nat :=
  let count : Nat := state &&& 0xFF
  let current_prediction : Int := (state >>> 8 : Nat)
  let bit_shift : Int := (bit : Int) * 2 ^ 24
  let mult : Int := (multiplier count : Nat)
  let new_prediction : Nat := (((bit_shift - current_prediction) * mult).fdiv (2 ^ 24) % (2 ^ 32 : Int)).toNat
  let state' : Nat := (state + ((new_prediction &&& 0xFFFFFF00) + if count < 255 then 1 else 0)) % 2 ^ 32
  (state', state >>> 8)

/-- Initial predictor state `BitPrediction::new` (src/main.rs line 71). -/
def BitPrediction.init : Nat := 0x80000000

/-- The update step as the specification sentence literally describes its
realization: `delta = ((target - p) * M[count]) >> 24` in signed 64-bit
arithmetic, and the state increased by `(delta << 8) & 0xFFFFFF00` (plus
the count increment) with 32-bit wrapping.  Modelled from the spec for
comparison against `BitPrediction.update`. -/
def specUpdateRealization (state bit : Nat) : Nat :=
  let count : Nat := state &&& 0xFF
  let p : Int := (state >>> 8 : Nat)
  let target : Int := (bit : Int) * 2 ^ 24
  let delta : Int := ((target - p) * ((multiplier count : Nat) : Int)).fdiv (2 ^ 24)
  (state + (((delta * 2 ^ 8) % (2 ^ 32 : Int)).toNat &&& 0xFFFFFF00) + if count < 255 then 1 else 0) % 2 ^ 32

/-- The outcome tag of `MatchingContext::update_match` (src/main.rs
lines 187-192). -/
inductive ByteMatched
  | FIRST
  | SECOND
  | THIRD
  | NONE
deriving DecidableEq

/-- `MatchingContext::update_match` (src/main.rs lines 211-237) on the
packed 32-bit history word: compare the incoming byte against the three
stored bytes and rearrange the word accordingly. -/
def update_match (value next_byte : Nat) : Nat × ByteMatched :=
  let mask : Nat := value ^^^ (0x10101 * next_byte)
  if mask &&& 0x0000FF = 0 then
    (value + if value < 0xFF000000 then 0x1000000 else 0, ByteMatched.FIRST)
  else if mask &&& 0x00FF00 = 0 then
    ((value &&& 0xFF0000) ||| ((value <<< 8) &&& 0xFF00) ||| next_byte ||| 0x1000000, ByteMatched.SECOND)
  else if mask &&& 0xFF0000 = 0 then
    (((value <<< 8) &&& 0xFFFF00) ||| next_byte ||| 0x1000000, ByteMatched.THIRD)
  else
    (((value <<< 8) &&& 0xFFFF00) ||| next_byte, ByteMatched.NONE)

/-- Accessor `get_first` (the `value as u8` truncation). -/
def get_first (v : Nat) : Nat := v % 256

/-- Accessor `get_second`. -/
def get_second (v : Nat) : Nat := v >>> 8 % 256

/-- Accessor `get_third`. -/
def get_third (v : Nat) : Nat := v >>> 16 % 256

/-- Accessor `get_count`. -/
def get_count (v : Nat) : Nat := v >>> 24

/-- Folding a byte sequence into a fresh history cell
(`MatchingContext::new` starts at zero). -/
def cellApply (bs : List Nat) : Nat := bs.foldl (fun v b => (update_match v b).1) 0


/-- State of `BitEncoder` minus the predictor table (src/main.rs
lines 99-106): the range bounds, the output bit buffer and its fill count,
the bytes written so far, and a ghost counter of renormalization shifts. -/
structure Coder where
  low : Nat
  high : Nat
  bit_buffer : Nat
  bit_count : Nat
  out : List Nat
  shifts : Nat
deriving DecidableEq

/-- Initial coder state from `BitEncoder::new` (lines 109-118). -/
def Coder.init : Coder :=
  { low := 0, high := 0xFFFFFFFFFFFFFFFF, bit_buffer := 0, bit_count := 0, out := [], shifts := 0 }

/-- Loop guard of `flush_bit` (line 156): the top bits of `low` and `high`
agree. -/
def flushGuard (c : Coder) : Bool := (c.high ^^^ c.low) &&& 0x8000000000000000 == 0

/-- One iteration of the `flush_bit` loop body (lines 157-168), with the
u8 and u64 wrap-around of the release build made explicit. -/
def flushStep (c : Coder) : Coder :=
  let bb := (c.bit_buffer + (c.bit_buffer + if 0x8000000000000000 ≤ c.low then 1 else 0)) % 256
  let high := (c.high + (c.high + 1)) % 2 ^ 64
  let low := (c.low + c.low) % 2 ^ 64
  let n := c.bit_count + 1
  if n = 8 then
    { low := low
      high := high
      bit_buffer := bb
      bit_count := 0
      out := c.out ++ [bb]
      shifts := c.shifts + 1 }
  else
    { low := low
      high := high
      bit_buffer := bb
      bit_count := n
      out := c.out
      shifts := c.shifts + 1 }

/-- The `flush_bit` loop with an explicit iteration bound; 64 iterations
always reach a state with a false guard (`flushBitAux_guard_false`), so the
bound never cuts the loop short. -/
def flushBitAux : Nat → Coder → Coder
  | 0, c => c
  | fuel + 1, c => if flushGuard c then flushBitAux fuel (flushStep c) else c

/-- `BitEncoder::flush_bit` (lines 154-172). -/
def flush_bit (c : Coder) : Coder := flushBitAux 64 c

/-- `BitEncoder::flush` (lines 174-182): push the top bit of `low`, pad the
buffer to a full byte and write it. -/
def encFlush (c : Coder) : Coder :=
  let bb := (c.bit_buffer + (c.bit_buffer + if 0x8000000000000000 ≤ c.low then 1 else 0)) % 256
  let n := c.bit_count + 1
  let bb2 := (bb <<< (8 - n)) % 256
  { c with bit_buffer := bb2, bit_count := n, out := c.out ++ [bb2] }

/-- The assertion and bounds failures the encoder can hit; each failure
models a Rust panic site. -/
inductive EncError
  | bitRange
  | contextBound
  | lowHigh
  | midRange
deriving DecidableEq

/-- Whole encoder state: coder, predictor table, context map
(`MatchingContexts`, lines 242-268), and a ghost trace of every
`(context, bit)` pair passed to `BitEncoder::bit`. -/
structure EncSt where
  coder : Coder
  states : Nat → Nat
  cells : Nat → Nat
  last_byte : Nat
  hash_value : Nat
  acts : List (Nat × Nat)

/-- Number of predictor states allocated by `StreamEncoder::new`
(line 282): `(1024 + 256) * 1024`. -/
def numStates : Nat := (1024 + 256) * 1024

/-- `StreamEncoder::new` with `context_size_log = 24` as in `main`
(lines 278-285 and 361). -/
def EncSt.init : EncSt :=
  { coder := Coder.init
    states := fun _ => BitPrediction.init
    cells := fun _ => 0
    last_byte := 0
    hash_value := 0
    acts := [] }

/-- Sequencing of fallible steps: a failure keeps the state where it
stopped. -/
def bindE (r : EncSt × Option EncError) (f : EncSt → EncSt × Option EncError) :
    EncSt × Option EncError :=
  match r with
  | (st, some e) => (st, some e)
  | (st, none) => f st

/-- `BitEncoder::bit` (lines 120-134): record the call in the trace, check
the assertions and the table bound, update the predictor, narrow the range
and renormalize. -/
def encBit (st : EncSt) (context bit : Nat) : EncSt × Option EncError :=
  let st := { st with acts := st.acts ++ [(context, bit)] }
  if ¬(bit = 0 ∨ bit = 1) then (st, some EncError.bitRange)
  else if numStates ≤ context then (st, some EncError.contextBound)
  else
    let u := BitPrediction.update (st.states context) bit
    let st := { st with states := fun i => if i = context then u.1 else st.states i }
    let prediction := u.2
    if ¬st.coder.low < st.coder.high then (st, some EncError.lowHigh)
    else
      let delta := (st.coder.high - st.coder.low) * prediction / 2 ^ 24
      let mid := st.coder.low + delta + (bit ^^^ 1)
      if ¬(mid ≥ st.coder.low ∧ mid < st.coder.high) then (st, some EncError.midRange)
      else
        let coder := if bit ≠ 0 then { st.coder with high := mid } else { st.coder with low := mid }
        ({ st with coder := flush_bit coder }, none)

/-- `BitEncoder::byte` (lines 136-152): two 4-bit tree traversals. -/
def encByte (st : EncSt) (context byte : Nat) : EncSt × Option EncError :=
  let high : Nat := (byte >>> 4) ||| 16
  bindE (encBit st (context + 1) (high >>> 3 &&& 1)) fun st =>
  bindE (encBit st (context + (high >>> 3)) (high >>> 2 &&& 1)) fun st =>
  bindE (encBit st (context + (high >>> 2)) (high >>> 1 &&& 1)) fun st =>
  bindE (encBit st (context + (high >>> 1)) (high &&& 1)) fun st =>
  let low_context := context + 15 * (high - 15)
  let low : Nat := (byte &&& 15) ||| 16
  bindE (encBit st (low_context + 1) (low >>> 3 &&& 1)) fun st =>
  bindE (encBit st (low_context + (low >>> 3)) (low >>> 2 &&& 1)) fun st =>
  bindE (encBit st (low_context + (low >>> 2)) (low >>> 1 &&& 1)) fun st =>
  encBit st (low_context + (low >>> 1)) (low &&& 1)

/-- `bit_context` computed at the top of the encode loop (lines 294-298). -/
def bit_context (st : EncSt) : Nat :=
  let count := get_count (st.cells st.hash_value)
  (if count < 4 then (st.last_byte <<< 2) ||| count else 1024 + count) * 1024

/-- `first_context` (line 304). -/
def first_context (st : EncSt) : Nat := bit_context st + get_first (st.cells st.hash_value)

/-- `second_context` (lines 305-306), with the u8 wrapping add explicit. -/
def second_context (st : EncSt) : Nat :=
  bit_context st + 256 +
    (get_second (st.cells st.hash_value) + get_third (st.cells st.hash_value)) % 256

/-- `third_context` (lines 307-308), with the u8 wrapping mul and sub
explicit. -/
def third_context (st : EncSt) : Nat :=
  bit_context st + 512 +
    (get_second (st.cells st.hash_value) * 2 + 256 - get_third (st.cells st.hash_value)) % 256

/-- `literal_context` (line 309). -/
def literal_context (st : EncSt) : Nat := bit_context st + 768

/-- `MatchingContexts::update_match` (lines 261-267): update the cell at
the hash, remember the byte, and advance the rolling hash with multiplier
`5 << 5 = 160` masked to the 24-bit table size. -/
def ctxUpdate (st : EncSt) (next_byte : Nat) : EncSt × ByteMatched :=
  let r := update_match (st.cells st.hash_value) next_byte
  ({ st with
      cells := fun i => if i = st.hash_value then r.1 else st.cells i
      last_byte := next_byte
      hash_value := (st.hash_value * (5 <<< 5) + next_byte + 1) &&& (2 ^ 24 - 1) }, r.2)

/-- One iteration of the `StreamEncoder::encode` loop for an available
input byte (lines 290-341). -/
def encodeStep (st : EncSt) (b : Nat) : EncSt × Option EncError :=
  let fc := first_context st
  let sc := second_context st
  let tc := third_context st
  let lc := literal_context st
  let m := ctxUpdate st b
  match m.2 with
  | ByteMatched.FIRST => encBit m.1 fc 0
  | ByteMatched.SECOND =>
      bindE (encBit m.1 fc 1) fun st =>
      bindE (encBit st sc 1) fun st =>
      encBit st tc 0
  | ByteMatched.THIRD =>
      bindE (encBit m.1 fc 1) fun st =>
      bindE (encBit st sc 1) fun st =>
      encBit st tc 1
  | ByteMatched.NONE =>
      bindE (encBit m.1 fc 1) fun st =>
      bindE (encBit st sc 0) fun st =>
      encByte st lc b

/-- The end-of-stream iteration (lines 311-317): emit the sentinel —
bit 1 under `first_context`, bit 0 under `second_context`, the byte
`first` under `literal_context` — then flush. -/
def encodeFinish (st : EncSt) : EncSt × Option EncError :=
  let fc := first_context st
  let sc := second_context st
  let lc := literal_context st
  let fb := get_first (st.cells st.hash_value)
  bindE (encBit st fc 1) fun st =>
  bindE (encBit st sc 0) fun st =>
  bindE (encByte st lc fb) fun st =>
  ({ st with coder := encFlush st.coder }, none)

/-- `StreamEncoder::encode` (lines 287-342) over an explicit input byte
list; the read loop is structural recursion on the remaining input. -/
def encode (st : EncSt) : List Nat → EncSt × Option EncError
  | [] => encodeFinish st
  | b :: rest => bindE (encodeStep st b) fun st => encode st rest

/-- A 26-byte input on which the `mid >= low && mid < high` assertion of
`BitEncoder::bit` (line 129) fails: the range narrows to 3 while `low` and
`high` straddle `2 ^ 63`, and a 0-bit is then coded under a context whose
prediction is high enough that `mid` reaches `high`. -/
def failingInput : List Nat :=
  [93, 25, 197, 147, 93, 44, 44, 122, 138, 201, 5, 197, 198, 145, 37, 1, 0,
   0, 92, 223, 240, 0, 66, 158, 0, 0]

/-- The eight `(context, bit)` calls that `BitEncoder::byte` makes, in
order (lines 136-152). -/
def byteActs (context byte : Nat) : List (Nat × Nat) :=
  let high : Nat := (byte >>> 4) ||| 16
  let low_context := context + 15 * (high - 15)
  let low : Nat := (byte &&& 15) ||| 16
  [(context + 1, high >>> 3 &&& 1), (context + (high >>> 3), high >>> 2 &&& 1),
   (context + (high >>> 2), high >>> 1 &&& 1), (context + (high >>> 1), high &&& 1),
   (low_context + 1, low >>> 3 &&& 1), (low_context + (low >>> 3), low >>> 2 &&& 1),
   (low_context + (low >>> 2), low >>> 1 &&& 1), (low_context + (low >>> 1), low &&& 1)]

/-- Byte-packing invariant of the coder: the bytes written and the buffer
fill count track the renormalization shift count. -/
def CoderInv (c : Coder) : Prop :=
  c.out.length = c.shifts / 8 ∧ c.bit_count = c.shifts % 8

/-- Every context recorded in the trace is inside the predictor table. -/
def ActsBounded (st : EncSt) : Prop := ∀ p ∈ st.acts, p.1 < numStates

/-- Ranges of the model fields that mirror the Rust types: every history
cell is a u32 and the remembered previous byte is a u8. -/
def StInv (st : EncSt) : Prop := (∀ i, st.cells i < 2 ^ 32) ∧ st.last_byte < 256

section BitLemmas

/-- Bits of `x` selected by a contiguous mask `(2 ^ n - 1) * 2 ^ k` are the
middle digits `x / 2 ^ k % 2 ^ n`, repositioned. -/
theorem and_mask_mid (x k n : Nat) :
    x &&& (2 ^ n - 1) * 2 ^ k = x / 2 ^ k % 2 ^ n * 2 ^ k := by
  apply Nat.eq_of_testBit_eq
  intro i
  rcases Nat.lt_or_ge i k with h | h
  · have h1 : ((2 ^ n - 1) * 2 ^ k).testBit i = false := by
      rw [← Nat.shiftLeft_eq, Nat.testBit_shiftLeft]
      simp [Nat.not_le_of_lt h]
    have h2 : (x / 2 ^ k % 2 ^ n * 2 ^ k).testBit i = false := by
      rw [← Nat.shiftLeft_eq, Nat.testBit_shiftLeft]
      simp [Nat.not_le_of_lt h]
    simp [Nat.testBit_and, h1, h2]
  · obtain ⟨j, rfl⟩ : ∃ j, i = k + j := ⟨i - k, by omega⟩
    rw [Nat.testBit_and]
    rw [show (2 ^ n - 1) * 2 ^ k = (2 ^ n - 1) <<< k from (Nat.shiftLeft_eq _ _).symm]
    rw [show x / 2 ^ k % 2 ^ n * 2 ^ k = (x / 2 ^ k % 2 ^ n) <<< k from (Nat.shiftLeft_eq _ _).symm]
    rw [Nat.testBit_shiftLeft, Nat.testBit_shiftLeft]
    rw [show x / 2 ^ k = x >>> k from (Nat.shiftRight_eq_div_pow x k).symm]
    simp [Nat.testBit_mod_two_pow, Nat.testBit_shiftRight, Nat.add_sub_cancel_left,
      Nat.le_add_right, Bool.and_comm]

/-- Low-byte mask as a remainder. -/
theorem and_255 (x : Nat) : x &&& 0xFF = x % 256 := by
  have := Nat.and_pow_two_sub_one_eq_mod x 8
  norm_num at this
  exact this

/-- Shift by eight as a division. -/
theorem shiftRight_8 (x : Nat) : x >>> 8 = x / 256 := by
  rw [Nat.shiftRight_eq_div_pow]

/-- The predictor's high-bits mask keeps the top 24 bits and clears the
count byte. -/
theorem and_FFFFFF00 (x : Nat) : x &&& 0xFFFFFF00 = x / 256 % 2 ^ 24 * 256 := by
  have h := and_mask_mid x 8 24
  norm_num at h
  exact h

end BitLemmas

section Predictor

set_option maxRecDepth 4000

/-- Every table entry in range is at most `2 ^ 31`. -/
theorem multiplier_le_aux : ∀ i, i < 256 → multiplier i ≤ 2 ^ 31 := by decide

/-- The length of the transcribed table. -/
theorem MULTIPLIER_length : MULTIPLIER.length = 256 := by rfl

/-- Every table entry is at most `2 ^ 31`. -/
theorem multiplier_le (i : Nat) : multiplier i ≤ 2 ^ 31 := by
  rcases Nat.lt_or_ge i 256 with h | h
  · exact multiplier_le_aux i h
  · have hlen := MULTIPLIER_length
    unfold multiplier
    rw [List.getD_eq_default]
    · exact Nat.zero_le _
    · omega

/-- Modular arithmetic for the count byte of the updated state. -/
theorem update_mod_aux (state A inc : Nat) (_hs : state < 2 ^ 32) (_hA : A < 2 ^ 24)
    (hinc : inc = if state % 256 < 255 then 1 else 0) :
    (state + (A * 256 + inc)) % 2 ^ 32 % 256 = min (state % 256 + 1) 255 := by
  rw [Nat.mod_mod_of_dvd _ (by norm_num : (256 : Nat) ∣ 2 ^ 32)]
  subst hinc
  rcases Nat.lt_or_ge (state % 256) 255 with h | h
  · rw [if_pos h]
    omega
  · rw [if_neg (Nat.not_lt.mpr h)]
    omega

/-- The division step of the state update, on naturals. -/
theorem update_div_aux_nat (state A inc : Nat) (_hs : state < 2 ^ 32) (_hA : A < 2 ^ 24)
    (hinc : inc ≤ 1) :
    (state % 256 + inc < 256) →
    (state + (A * 256 + inc)) % 2 ^ 32 / 256 = (state / 256 + A) % 2 ^ 24 := by
  intro h2
  have h1 : state + (A * 256 + inc) = (state % 256 + inc) + 256 * (state / 256 + A) := by
    omega
  rw [h1]
  have h3 : ((state % 256 + inc) + 256 * (state / 256 + A)) % 2 ^ 32 =
      (state % 256 + inc) + 256 * ((state / 256 + A) % 2 ^ 24) := by
    omega
  rw [h3]
  omega

/-- Modular arithmetic for the prediction bits of the updated state. -/
theorem update_div_aux (state A inc : Nat) (δ : Int) (hs : state < 2 ^ 32)
    (hinc : inc = if state % 256 < 255 then 1 else 0)
    (hA : (A : Int) = δ / 256 % 2 ^ 24) :
    (((state + (A * 256 + inc)) % 2 ^ 32 / 256 : Nat) : Int) =
      ((state / 256 : Nat) + δ / 256) % 2 ^ 24 := by
  have hA24 : A < 2 ^ 24 := by omega
  have hinc1 : inc ≤ 1 := by
    subst hinc
    rcases Nat.lt_or_ge (state % 256) 255 with h | h
    · rw [if_pos h]
    · rw [if_neg (Nat.not_lt.mpr h)]
      omega
  have hlow : state % 256 + inc < 256 := by
    subst hinc
    rcases Nat.lt_or_ge (state % 256) 255 with h | h
    · rw [if_pos h]
      omega
    · rw [if_neg (Nat.not_lt.mpr h)]
      omega
  rw [update_div_aux_nat state A inc hs hA24 hinc1 hlow]
  omega

/-- Arithmetic characterization of `BitPrediction.update`: the returned
value is the old prediction `state / 256`; the new count byte saturates at
255; the new prediction adds the delta shifted down by eight, modulo
`2 ^ 24`; and the signed 64-bit product in the source cannot overflow. -/
theorem BitPrediction.update_char (state bit : Nat) (hs : state < 2 ^ 32) (hb : bit ≤ 1) :
    (BitPrediction.update state bit).2 = state / 256 ∧
    (BitPrediction.update state bit).1 % 256 = min (state % 256 + 1) 255 ∧
    (((BitPrediction.update state bit).1 / 256 : Nat) : Int) =
      (((state / 256 : Nat) : Int) +
        (((bit : Int) * 2 ^ 24 - ((state / 256 : Nat) : Int)) * ((multiplier (state % 256) : Nat) : Int)).fdiv (2 ^ 24) / 256) %
        2 ^ 24 ∧
    (((bit : Int) * 2 ^ 24 - ((state / 256 : Nat) : Int)) * ((multiplier (state % 256) : Nat) : Int)).natAbs < 2 ^ 63 := by
  have hm := multiplier_le (state % 256)
  have hp : state / 256 < 2 ^ 24 := by omega
  set m : Int := ((multiplier (state % 256) : Nat) : Int) with hm_def
  have hm0 : 0 ≤ m := Int.natCast_nonneg _
  have hmle : m ≤ 2 ^ 31 := by rw [hm_def]; exact_mod_cast hm
  set p : Nat := state / 256 with hp_def
  set prod : Int := ((bit : Int) * 2 ^ 24 - (p : Int)) * m with hprod_def
  have habs : prod.natAbs < 2 ^ 63 := by
    have h1 : ((bit : Int) * 2 ^ 24 - (p : Int)) ≤ 2 ^ 24 := by
      have : (bit : Int) ≤ 1 := by exact_mod_cast hb
      nlinarith [Int.natCast_nonneg p]
    have h2 : -(2 ^ 24 : Int) ≤ (bit : Int) * 2 ^ 24 - (p : Int) := by
      have hpi : (p : Int) < 2 ^ 24 := by exact_mod_cast hp
      nlinarith [Int.natCast_nonneg bit]
    have : prod.natAbs ≤ 2 ^ 24 * 2 ^ 31 := by
      rw [hprod_def, Int.natAbs_mul]
      have ha : ((bit : Int) * 2 ^ 24 - (p : Int)).natAbs ≤ 2 ^ 24 := by omega
      have hm' : m.natAbs ≤ 2 ^ 31 := by omega
      exact Nat.mul_le_mul ha hm'
    omega
  set δ : Int := prod.fdiv (2 ^ 24) with hδ_def
  have hδe : δ = prod / 2 ^ 24 := by rw [hδ_def]; exact Int.fdiv_eq_ediv _ (by positivity)
  -- the truncated-to-u32 delta
  set np : Nat := (δ % (2 ^ 32 : Int)).toNat with hnp_def
  have hnp_int : (np : Nat) = ((δ % (2 ^ 32 : Int)).toNat : Nat) := rfl
  have hnp32 : np < 2 ^ 32 := by
    have h1 : δ % (2 ^ 32 : Int) < 2 ^ 32 := Int.emod_lt_of_pos _ (by positivity)
    have h2 : 0 ≤ δ % (2 ^ 32 : Int) := Int.emod_nonneg _ (by positivity)
    omega
  have hsplit : np / 256 = ((δ / 256 % 2 ^ 24).toNat : Nat) ∧ np % 256 = (δ % 256).toNat := by
    have h2 : 0 ≤ δ % (2 ^ 32 : Int) := Int.emod_nonneg _ (by positivity)
    have hkey : δ % (2 ^ 32 : Int) = 256 * (δ / 256 % 2 ^ 24) + δ % 256 := by omega
    omega
  have hupd : BitPrediction.update state bit =
      ((state + (np / 256 % 2 ^ 24 * 256 + if state % 256 < 255 then 1 else 0)) % 2 ^ 32,
        state / 256) := by
    show (let count : Nat := state &&& 0xFF
      let current_prediction : Int := (state >>> 8 : Nat)
      let bit_shift : Int := (bit : Int) * 2 ^ 24
      let mult : Int := (multiplier count : Nat)
      let new_prediction : Nat := (((bit_shift - current_prediction) * mult).fdiv (2 ^ 24) % (2 ^ 32 : Int)).toNat
      let state' : Nat := (state + ((new_prediction &&& 0xFFFFFF00) + if count < 255 then 1 else 0)) % 2 ^ 32
      ((state', state >>> 8) : Nat × Nat)) = _
    simp only [and_255, shiftRight_8, and_FFFFFF00]
  have hnp_lt : np / 256 < 2 ^ 24 := by omega
  have hnp_mod : np / 256 % 2 ^ 24 = np / 256 := Nat.mod_eq_of_lt hnp_lt
  have hfst : (BitPrediction.update state bit).1 =
      (state + (np / 256 * 256 + if state % 256 < 255 then 1 else 0)) % 2 ^ 32 := by
    rw [hupd, hnp_mod]
  have hAint : ((np / 256 : Nat) : Int) = δ / 256 % 2 ^ 24 := by omega
  refine ⟨by rw [hupd], ?_, ?_, habs⟩
  · rw [hfst]
    exact update_mod_aux state (np / 256) _ hs hnp_lt rfl
  · rw [hfst]
    exact update_div_aux state (np / 256) _ δ hs rfl hAint

end Predictor

section HistoryCell

/-- Disjoint bits combine by addition. -/
theorem or_pack2 (a b i : Nat) (hb : b < 2 ^ i) : 2 ^ i * a ||| b = 2 ^ i * a + b :=
  (Nat.mul_add_lt_is_or hb a).symm

/-- The byte-equality reading of the first-byte mask test. -/
theorem mask_first_iff (v b : Nat) (hb : b < 256) :
    ((v ^^^ 0x10101 * b) &&& 0x0000FF = 0) ↔ v % 256 = b := by
  rw [Nat.and_xor_distrib_right]
  rw [and_255, and_255]
  rw [Nat.xor_eq_zero]
  have : 0x10101 * b % 256 = b := by omega
  rw [this]

/-- The byte-equality reading of the second-byte mask test. -/
theorem mask_second_iff (v b : Nat) (hb : b < 256) :
    ((v ^^^ 0x10101 * b) &&& 0x00FF00 = 0) ↔ v / 256 % 256 = b := by
  rw [Nat.and_xor_distrib_right]
  have hm : ∀ x : Nat, x &&& 0x00FF00 = x / 256 % 256 * 256 := by
    intro x
    have h := and_mask_mid x 8 8
    norm_num at h
    exact h
  rw [hm, hm, Nat.xor_eq_zero]
  have h1 : 0x10101 * b / 256 = 257 * b := by
    have e : 0x10101 * b = b + 256 * (257 * b) := by ring
    rw [e, Nat.add_mul_div_left _ _ (by norm_num : (0 : Nat) < 256)]
    omega
  have : 0x10101 * b / 256 % 256 = b := by
    rw [h1]
    omega
  rw [this]
  constructor
  · intro h
    omega
  · intro h
    omega

/-- The byte-equality reading of the third-byte mask test. -/
theorem mask_third_iff (v b : Nat) (hb : b < 256) :
    ((v ^^^ 0x10101 * b) &&& 0xFF0000 = 0) ↔ v / 65536 % 256 = b := by
  rw [Nat.and_xor_distrib_right]
  have hm : ∀ x : Nat, x &&& 0xFF0000 = x / 65536 % 256 * 65536 := by
    intro x
    have h := and_mask_mid x 16 8
    norm_num at h
    exact h
  rw [hm, hm, Nat.xor_eq_zero]
  have h1 : 0x10101 * b / 65536 = b := by
    have e : 0x10101 * b = 257 * b + 65536 * b := by ring
    rw [e, Nat.add_mul_div_left _ _ (by norm_num : (0 : Nat) < 65536)]
    have : 257 * b / 65536 = 0 := Nat.div_eq_of_lt (by omega)
    omega
  have : 0x10101 * b / 65536 % 256 = b := by
    rw [h1]
    omega
  rw [this]
  constructor
  · intro h
    omega
  · intro h
    omega

/-- Packed value produced by the SECOND branch, arithmetically. -/
theorem second_value_eq (v b : Nat) (hb : b < 256) :
    (v &&& 0xFF0000) ||| ((v <<< 8) &&& 0xFF00) ||| b ||| 0x1000000 =
      b + v % 256 * 256 + v / 65536 % 256 * 65536 + 0x1000000 := by
  have h3 : v &&& 0xFF0000 = v / 65536 % 256 * 65536 := by
    have h := and_mask_mid v 16 8
    norm_num at h
    exact h
  have h2 : (v <<< 8) &&& 0xFF00 = v % 256 * 256 := by
    have h := and_mask_mid (v <<< 8) 8 8
    norm_num at h
    rw [h, Nat.shiftLeft_eq]
    have : v * 2 ^ 8 / 256 = v := by omega
    rw [this]
  rw [h3, h2]
  have ht : v / 65536 % 256 < 256 := Nat.mod_lt _ (by norm_num)
  have hf : v % 256 < 256 := Nat.mod_lt _ (by norm_num)
  have e1 : v / 65536 % 256 * 65536 ||| v % 256 * 256 =
      v / 65536 % 256 * 65536 + v % 256 * 256 := by
    have := or_pack2 (v / 65536 % 256) (v % 256 * 256) 16 (by omega)
    calc v / 65536 % 256 * 65536 ||| v % 256 * 256
        = 2 ^ 16 * (v / 65536 % 256) ||| v % 256 * 256 := by ring_nf
      _ = 2 ^ 16 * (v / 65536 % 256) + v % 256 * 256 := this
      _ = v / 65536 % 256 * 65536 + v % 256 * 256 := by ring
  rw [e1]
  have e2 : v / 65536 % 256 * 65536 + v % 256 * 256 ||| b =
      v / 65536 % 256 * 65536 + v % 256 * 256 + b := by
    have heq : v / 65536 % 256 * 65536 + v % 256 * 256 =
        2 ^ 8 * (v / 65536 % 256 * 256 + v % 256) := by ring
    rw [heq, or_pack2 _ b 8 (by omega)]
  rw [e2]
  have e3 : v / 65536 % 256 * 65536 + v % 256 * 256 + b ||| 0x1000000 =
      0x1000000 + (v / 65536 % 256 * 65536 + v % 256 * 256 + b) := by
    rw [Nat.lor_comm]
    have : (0x1000000 : Nat) = 2 ^ 24 * 1 := by norm_num
    rw [this, or_pack2 1 _ 24 (by omega)]
  rw [e3]
  ring

/-- Packed value produced by the THIRD and NONE branches, arithmetically. -/
theorem shift_value_eq (v b : Nat) (hb : b < 256) :
    ((v <<< 8) &&& 0xFFFF00) ||| b = v % 65536 * 256 + b := by
  have h1 : (v <<< 8) &&& 0xFFFF00 = v % 65536 * 256 := by
    have h := and_mask_mid (v <<< 8) 8 16
    norm_num at h
    rw [h, Nat.shiftLeft_eq]
    have : v * 2 ^ 8 / 256 = v := by omega
    rw [this]
  rw [h1]
  have heq : v % 65536 * 256 = 2 ^ 8 * (v % 65536) := by ring
  rw [heq, or_pack2 _ b 8 (by omega)]

/-- Arithmetic characterization of `update_match`. -/
theorem update_match_char (v b : Nat) (hb : b < 256) :
    update_match v b =
      if v % 256 = b then
        (v + if v < 0xFF000000 then 0x1000000 else 0, ByteMatched.FIRST)
      else if v / 256 % 256 = b then
        (b + v % 256 * 256 + v / 65536 % 256 * 65536 + 0x1000000, ByteMatched.SECOND)
      else if v / 65536 % 256 = b then
        (b + v % 65536 * 256 + 0x1000000, ByteMatched.THIRD)
      else
        (b + v % 65536 * 256, ByteMatched.NONE) := by
  unfold update_match
  rcases iff_iff_and_or_not_and_not.mp (mask_first_iff v b hb) with ⟨hc, hd⟩ | ⟨hc, hd⟩
  · rw [if_pos hc, if_pos hd]
  · rw [if_neg hc, if_neg hd]
    rcases iff_iff_and_or_not_and_not.mp (mask_second_iff v b hb) with ⟨hc2, hd2⟩ | ⟨hc2, hd2⟩
    · rw [if_pos hc2, if_pos hd2, second_value_eq v b hb]
    · rw [if_neg hc2, if_neg hd2]
      rcases iff_iff_and_or_not_and_not.mp (mask_third_iff v b hb) with ⟨hc3, hd3⟩ | ⟨hc3, hd3⟩
      · rw [if_pos hc3, if_pos hd3]
        have h1 : ((v <<< 8) &&& 0xFFFF00) ||| b ||| 0x1000000 =
            b + v % 65536 * 256 + 0x1000000 := by
          rw [shift_value_eq v b hb]
          rw [Nat.lor_comm]
          have : (0x1000000 : Nat) = 2 ^ 24 * 1 := by norm_num
          rw [this, or_pack2 1 _ 24 (by omega)]
          ring
        rw [h1]
      · rw [if_neg hc3, if_neg hd3, shift_value_eq v b hb]
        rw [Nat.add_comm]

/-- `update_match` keeps the cell inside 32 bits. -/
theorem update_match_lt (v b : Nat) (hv : v < 2 ^ 32) (hb : b < 256) :
    (update_match v b).1 < 2 ^ 32 := by
  rw [update_match_char v b hb]
  have h1 : v % 256 < 256 := Nat.mod_lt _ (by norm_num)
  have h2 : v / 65536 % 256 < 256 := Nat.mod_lt _ (by norm_num)
  have h3 : v % 65536 < 65536 := Nat.mod_lt _ (by norm_num)
  split_ifs <;> dsimp only <;> omega

/-- After one `update_match`, the count byte is zero exactly on the NONE
branch. -/
theorem update_match_count_zero_iff (v b : Nat) (hv : v < 2 ^ 32) (hb : b < 256) :
    (get_count (update_match v b).1 = 0 ↔ (update_match v b).2 = ByteMatched.NONE) := by
  rw [update_match_char v b hb]
  unfold get_count
  rw [Nat.shiftRight_eq_div_pow]
  have h1 : v % 256 < 256 := Nat.mod_lt _ (by norm_num)
  have h2 : v / 65536 % 256 < 256 := Nat.mod_lt _ (by norm_num)
  have h3 : v % 65536 < 65536 := Nat.mod_lt _ (by norm_num)
  split_ifs with hf hlt hs ht <;> dsimp only <;> norm_num <;> omega

/-- Folding one more byte into a cell. -/
theorem cellApply_append (L : List Nat) (b : Nat) :
    cellApply (L ++ [b]) = (update_match (cellApply L) b).1 := by
  unfold cellApply
  rw [List.foldl_append]
  rfl

/-- A cell built from in-range bytes stays inside 32 bits. -/
theorem cellApply_lt (bs : List Nat) (h : ∀ b ∈ bs, b < 256) : cellApply bs < 2 ^ 32 := by
  induction bs using List.reverseRecOn with
  | nil => norm_num [cellApply]
  | append_singleton L b ih =>
    rw [cellApply_append]
    have hb : b < 256 := h b (by simp)
    have hL : ∀ x ∈ L, x < 256 := fun x hx => h x (by simp [hx])
    exact update_match_lt _ b (ih hL) hb

/-- Closed form of a fresh cell hit by the same nonzero byte `k ≥ 1`
times: the byte sits in `first` and the count saturates at 255. -/
theorem cell_replicate (b : Nat) (hb0 : 0 < b) (hb : b < 256) :
    ∀ k, 1 ≤ k → cellApply (List.replicate k b) = b + min (k - 1) 255 * 2 ^ 24 := by
  intro k hk
  induction k, hk using Nat.le_induction with
  | base =>
    rw [show List.replicate 1 b = [] ++ [b] by simp, cellApply_append]
    rw [show cellApply [] = 0 from rfl]
    rw [update_match_char 0 b hb]
    rw [if_neg (by omega), if_neg (by omega), if_neg (by omega)]
    dsimp only
    omega
  | succ k hk ih =>
    rw [List.replicate_succ' k b, cellApply_append, ih]
    rw [update_match_char _ b hb]
    rw [if_pos (by omega)]
    rcases Nat.lt_or_ge (k - 1) 255 with h | h
    · rw [if_pos (by omega)]
      dsimp only
      omega
    · rw [if_neg (by omega)]
      dsimp only
      omega

end HistoryCell

section CoderLoop

/-- One unconditional loop step doubles `low` (mod `2 ^ 64`). -/
theorem flushStep_low (c : Coder) : (flushStep c).low = c.low * 2 % 2 ^ 64 := by
  unfold flushStep
  dsimp only
  split_ifs <;> dsimp only <;> omega

/-- One unconditional loop step doubles `high` and ors in a one. -/
theorem flushStep_high (c : Coder) : (flushStep c).high = (c.high * 2 + 1) % 2 ^ 64 := by
  unfold flushStep
  dsimp only
  split_ifs <;> dsimp only <;> omega

/-- Closed form of `low` after `k + 1` unconditional loop steps. -/
theorem flushIter_low (k : Nat) (c : Coder) :
    (flushStep^[k + 1] c).low = c.low * 2 ^ (k + 1) % 2 ^ 64 := by
  induction k generalizing c with
  | zero =>
    rw [Function.iterate_one, flushStep_low]
    norm_num
  | succ k ih =>
    rw [Function.iterate_succ_apply, ih, flushStep_low]
    rw [Nat.mod_mul_mod]
    congr 1
    ring

/-- Closed form of `high` after `k + 1` unconditional loop steps. -/
theorem flushIter_high (k : Nat) (c : Coder) :
    (flushStep^[k + 1] c).high = (c.high * 2 ^ (k + 1) + (2 ^ (k + 1) - 1)) % 2 ^ 64 := by
  induction k generalizing c with
  | zero =>
    rw [Function.iterate_one, flushStep_high]
    norm_num
  | succ k ih =>
    rw [Function.iterate_succ_apply, ih, flushStep_high]
    have h2 : ((c.high * 2 + 1) % 2 ^ 64 * 2 ^ (k + 1) + (2 ^ (k + 1) - 1)) % 2 ^ 64 =
        ((c.high * 2 + 1) * 2 ^ (k + 1) + (2 ^ (k + 1) - 1)) % 2 ^ 64 := by
      conv_lhs => rw [Nat.add_mod, Nat.mod_mul_mod, ← Nat.add_mod]
    rw [h2]
    congr 1
    have h1 : 0 < 2 ^ (k + 1) := Nat.pos_pow_of_pos (k + 1) (by norm_num)
    have h3 : (c.high * 2 + 1) * 2 ^ (k + 1) = c.high * 2 ^ (k + 1 + 1) + 2 ^ (k + 1) := by ring
    have h4 : 2 ^ (k + 1 + 1) = 2 * 2 ^ (k + 1) := by ring
    omega

/-- If the guard still holds at the end of a fuelled run, every iteration
ran, so the result is the unconditional iterate. -/
theorem flushBitAux_eq_iterate (fuel : Nat) :
    ∀ c, flushGuard (flushBitAux fuel c) = true → flushBitAux fuel c = flushStep^[fuel] c := by
  induction fuel with
  | zero =>
    intro c _
    rfl
  | succ fuel ih =>
    intro c h
    by_cases hg : flushGuard c = true
    · rw [flushBitAux, if_pos hg] at h ⊢
      rw [ih _ h, Function.iterate_succ_apply]
    · rw [flushBitAux, if_neg hg] at h
      exact absurd h hg

/-- The renormalization loop reaches a false guard within its 64-step
bound: the fuel never cuts the Rust `while` short. -/
theorem flush_bit_guard_false (c : Coder) : flushGuard (flush_bit c) = false := by
  rcases h : flushGuard (flush_bit c) with _ | _
  · rfl
  · exfalso
    unfold flush_bit at h
    have he := flushBitAux_eq_iterate 64 c h
    rw [he] at h
    rw [show (64 : Nat) = 63 + 1 from rfl] at h
    unfold flushGuard at h
    rw [flushIter_low, flushIter_high] at h
    have hl : c.low * 2 ^ (63 + 1) % 2 ^ 64 = 0 := by
      rw [show (63 + 1 : Nat) = 64 from rfl, Nat.mul_mod_left]
    have hh : (c.high * 2 ^ (63 + 1) + (2 ^ (63 + 1) - 1)) % 2 ^ 64 = 2 ^ 64 - 1 := by
      rw [show (63 + 1 : Nat) = 64 from rfl]
      omega
    rw [hl, hh] at h
    exact absurd (by decide : ((2 ^ 64 - 1 : Nat) ^^^ 0) &&& 0x8000000000000000 ≠ 0)
      (by simpa using h)

/-- Each loop step preserves the byte-packing invariant. -/
theorem flushStep_inv (c : Coder) (h : CoderInv c) : CoderInv (flushStep c) := by
  obtain ⟨h1, h2⟩ := h
  unfold flushStep CoderInv
  dsimp only
  split_ifs
  all_goals dsimp only
  all_goals constructor
  all_goals try rw [List.length_append]
  all_goals try simp only [List.length_cons, List.length_nil]
  all_goals omega

/-- The fuelled loop preserves the byte-packing invariant. -/
theorem flushBitAux_inv (fuel : Nat) : ∀ c, CoderInv c → CoderInv (flushBitAux fuel c) := by
  induction fuel with
  | zero =>
    intro c h
    exact h
  | succ fuel ih =>
    intro c h
    rw [flushBitAux]
    split_ifs
    · exact ih _ (flushStep_inv c h)
    · exact h

/-- `flush_bit` preserves the byte-packing invariant. -/
theorem flush_bit_inv (c : Coder) (h : CoderInv c) : CoderInv (flush_bit c) :=
  flushBitAux_inv 64 c h

/-- The final flush writes exactly one more byte and leaves the shift
count alone. -/
theorem encFlush_len (c : Coder) (h : CoderInv c) :
    (encFlush c).out.length = (c.shifts + 1 + 7) / 8 ∧ (encFlush c).shifts = c.shifts := by
  obtain ⟨h1, h2⟩ := h
  constructor
  · unfold encFlush
    dsimp only
    rw [List.length_append]
    simp only [List.length_cons, List.length_nil]
    omega
  · rfl

end CoderLoop

section ClaimsPredictor

set_option maxRecDepth 4000

/-- Claim C3, counterexample: the table entry at index 1 is
`0x55555555 = floor(2 ^ 32 / 3)`, not `round(2 ^ 32 / (1 + 1)) = 2 ^ 31`
as the claim (whose saturation clauses only touch the indices 0 and 255)
would require. -/
theorem claim_C3_counterexample :
    multiplier 1 = 0x55555555 ∧ multiplier 1 ≠ 2 ^ 32 / (1 + 1) := by
  constructor
  · rfl
  · decide

/-- Claim C3 (corrected): every entry of the multiplier table equals
`floor(2 ^ 32 / (i + 2))`; in particular entry 0 is `0x80000000` and entry
255 is `0x00FF00FF`, with no saturation involved. -/
theorem claim_C3 : ∀ i, i < 256 → multiplier i = 2 ^ 32 / (i + 2) := by decide

/-- Claim C3, witness at index 7. -/
theorem claim_C3_witness : multiplier 7 = 2 ^ 32 / (7 + 2) := claim_C3 7 (by norm_num)

/-- Claim C7 (confirmed): for every 32-bit predictor state and both bit
values, `update` returns the pre-update prediction `state >> 8`, and the
low 8 bits of the updated state are `min(count + 1, 255)`. -/
theorem claim_C7 (state bit : Nat) (hs : state < 2 ^ 32) (hb : bit ≤ 1) :
    (BitPrediction.update state bit).2 = state >>> 8 ∧
    (BitPrediction.update state bit).1 &&& 0xFF = min ((state &&& 0xFF) + 1) 255 := by
  have h := BitPrediction.update_char state bit hs hb
  rw [shiftRight_8, and_255, and_255]
  exact ⟨h.1, h.2.1⟩

/-- Claim C7, witness at the initial predictor state coding a one. -/
theorem claim_C7_witness :
    (BitPrediction.update 0x80000000 1).2 = 0x80000000 >>> 8 ∧
    (BitPrediction.update 0x80000000 1).1 &&& 0xFF = min ((0x80000000 &&& 0xFF) + 1) 255 :=
  claim_C7 0x80000000 1 (by norm_num) (by norm_num)

/-- Claim C2, counterexample: at the initial state `0x80000000` with
bit 0, the code yields state `0x40000001` (prediction `0x400000`), while
adding `(delta << 8) & 0xFFFFFF00` as the claim words it would leave the
prediction untouched (state `0x80000001`), and the claimed new prediction
`(p + delta) mod 2 ^ 24` would be `0x800000`. -/
theorem claim_C2_counterexample :
    (BitPrediction.update 0x80000000 0).1 = 0x40000001 ∧
    specUpdateRealization 0x80000000 0 = 0x80000001 ∧
    (BitPrediction.update 0x80000000 0).1 ≠ specUpdateRealization 0x80000000 0 ∧
    (((BitPrediction.update 0x80000000 0).1 / 256 : Nat) : Int) ≠
      (((0x80000000 / 256 : Nat) : Int) +
        (((0 : Int) * 2 ^ 24 - ((0x80000000 / 256 : Nat) : Int)) *
          ((multiplier (0x80000000 % 256) : Nat) : Int)).fdiv (2 ^ 24)) % 2 ^ 24 := by
  refine ⟨by decide, by decide, by decide, by decide⟩

/-- Claim C2 (corrected): `delta = ((target - p) * M[count]) >> 24` indeed
fits in signed 64-bit arithmetic, but the new prediction is
`(p + (delta >> 8)) mod 2 ^ 24`, realized by adding `delta & 0xFFFFFF00`
(the truncated delta with its low byte cleared, not `delta << 8`) to the
state with 32-bit wrapping, preserving the count byte unless it is
incremented. -/
theorem claim_C2 (state bit : Nat) (hs : state < 2 ^ 32) (hb : bit ≤ 1) :
    (((bit : Int) * 2 ^ 24 - ((state / 256 : Nat) : Int)) *
        ((multiplier (state % 256) : Nat) : Int)).natAbs < 2 ^ 63 ∧
    (((BitPrediction.update state bit).1 / 256 : Nat) : Int) =
      (((state / 256 : Nat) : Int) +
        (((bit : Int) * 2 ^ 24 - ((state / 256 : Nat) : Int)) *
          ((multiplier (state % 256) : Nat) : Int)).fdiv (2 ^ 24) / 256) % 2 ^ 24 ∧
    (BitPrediction.update state bit).1 % 256 = min (state % 256 + 1) 255 := by
  have h := BitPrediction.update_char state bit hs hb
  exact ⟨h.2.2.2, h.2.2.1, h.2.1⟩

/-- Claim C2, witness at the initial predictor state coding a zero. -/
theorem claim_C2_witness :
    (((0 : Int) * 2 ^ 24 - ((0x80000000 / 256 : Nat) : Int)) *
        ((multiplier (0x80000000 % 256) : Nat) : Int)).natAbs < 2 ^ 63 ∧
    (((BitPrediction.update 0x80000000 0).1 / 256 : Nat) : Int) =
      (((0x80000000 / 256 : Nat) : Int) +
        (((0 : Int) * 2 ^ 24 - ((0x80000000 / 256 : Nat) : Int)) *
          ((multiplier (0x80000000 % 256) : Nat) : Int)).fdiv (2 ^ 24) / 256) % 2 ^ 24 ∧
    (BitPrediction.update 0x80000000 0).1 % 256 = min (0x80000000 % 256 + 1) 255 :=
  claim_C2 0x80000000 0 (by norm_num) (by norm_num)

end ClaimsPredictor

section ClaimsHistory

/-- Claim C8, counterexample: a fresh cell updated once with byte 1 takes
the NONE branch, which leaves `match_count = 0` even though the cell has
been updated. -/
theorem claim_C8_counterexample :
    get_count (cellApply [1]) = 0 ∧ ([1] : List Nat) ≠ [] := by
  refine ⟨by decide, by decide⟩

/-- Claim C8 (corrected): for every update sequence from the all-zero
cell, `match_count = 0` holds iff the cell has never been updated or the
most recent update took the NONE branch (which resets the count to 0). -/
theorem claim_C8 (bs : List Nat) (h : ∀ b ∈ bs, b < 256) :
    (get_count (cellApply bs) = 0 ↔
      bs = [] ∨ ∃ bs' b, bs = bs' ++ [b] ∧ (update_match (cellApply bs') b).2 = ByteMatched.NONE) := by
  rcases List.eq_nil_or_concat bs with rfl | ⟨L, b, rfl⟩
  · simp
    decide
  · rw [List.concat_eq_append] at h ⊢
    have hb : b < 256 := h b (by simp)
    have hL : ∀ x ∈ L, x < 256 := fun x hx => h x (by simp [hx])
    rw [cellApply_append]
    rw [update_match_count_zero_iff _ b (cellApply_lt L hL) hb]
    constructor
    · intro h0
      exact Or.inr ⟨L, b, rfl, h0⟩
    · rintro (habs | ⟨bs', b', heq, hnone⟩)
      · exact absurd habs (by simp)
      · obtain ⟨hL_eq, hb_eq⟩ := List.append_inj' heq (by simp)
        subst hL_eq
        have hbb : b = b' := by
          simp only [List.cons.injEq, and_true] at hb_eq
          exact hb_eq
        subst hbb
        exact hnone

/-- Claim C8, witness: a single NONE update keeps the count at zero. -/
theorem claim_C8_witness :
    (get_count (cellApply [1]) = 0 ↔
      ([1] : List Nat) = [] ∨
        ∃ bs' b, ([1] : List Nat) = bs' ++ [b] ∧ (update_match (cellApply bs') b).2 = ByteMatched.NONE) :=
  claim_C8 [1] (by intro b hb; simp at hb; omega)

/-- Claim C9, counterexample: for byte 0 the very first update of a fresh
cell matches `first` (the cell starts as all zeros), so it takes the FIRST
branch, and after one update `match_count = 1`, not `min(k - 1, 255) = 0`. -/
theorem claim_C9_counterexample :
    (update_match 0 0).2 = ByteMatched.FIRST ∧
    ByteMatched.FIRST ≠ ByteMatched.NONE ∧
    get_count (cellApply (List.replicate 1 0)) = 1 ∧ (1 : Nat) ≠ min (1 - 1) 255 := by
  refine ⟨by decide, by decide, by decide, by decide⟩

/-- Claim C9 (corrected): for every nonzero byte `b` and `k ≥ 1`, feeding
`b` to a fresh cell `k` times takes the NONE branch first (storing `b`
with count 0) and the FIRST branch on every later application, ending with
`first = b`, `second = third = 0` and `match_count = min(k - 1, 255)`.
For byte 0 the first application already takes the FIRST branch. -/
theorem claim_C9 (b k : Nat) (hb0 : 0 < b) (hb : b < 256) (hk : 1 ≤ k) :
    (update_match 0 b).2 = ByteMatched.NONE ∧
    (∀ j, 1 ≤ j → (update_match (cellApply (List.replicate j b)) b).2 = ByteMatched.FIRST) ∧
    get_first (cellApply (List.replicate k b)) = b ∧
    get_second (cellApply (List.replicate k b)) = 0 ∧
    get_third (cellApply (List.replicate k b)) = 0 ∧
    get_count (cellApply (List.replicate k b)) = min (k - 1) 255 := by
  have hstate := cell_replicate b hb0 hb k hk
  have hNONE : (update_match 0 b).2 = ByteMatched.NONE := by
    rw [update_match_char 0 b hb]
    rw [if_neg (by omega), if_neg (by omega), if_neg (by omega)]
  refine ⟨hNONE, ?_, ?_, ?_, ?_, ?_⟩
  · intro j hj
    have hstj := cell_replicate b hb0 hb j hj
    rw [hstj, update_match_char _ b hb]
    rw [if_pos (by omega)]
  · rw [hstate]
    unfold get_first
    omega
  · rw [hstate]
    unfold get_second
    rw [shiftRight_8]
    have h1 : min (k - 1) 255 ≤ 255 := by omega
    have h2 : (b + min (k - 1) 255 * 2 ^ 24) / 256 = min (k - 1) 255 * 65536 := by
      omega
    rw [h2]
    omega
  · rw [hstate]
    unfold get_third
    rw [Nat.shiftRight_eq_div_pow]
    have h1 : min (k - 1) 255 ≤ 255 := by omega
    have h2 : (b + min (k - 1) 255 * 2 ^ 24) / 2 ^ 16 = min (k - 1) 255 * 256 := by
      omega
    rw [h2]
    omega
  · rw [hstate]
    unfold get_count
    rw [Nat.shiftRight_eq_div_pow]
    have h1 : min (k - 1) 255 ≤ 255 := by omega
    omega

/-- Claim C9, witness at byte 65 fed three times. -/
theorem claim_C9_witness :
    (update_match 0 65).2 = ByteMatched.NONE ∧
    (∀ j, 1 ≤ j → (update_match (cellApply (List.replicate j 65)) 65).2 = ByteMatched.FIRST) ∧
    get_first (cellApply (List.replicate 3 65)) = 65 ∧
    get_second (cellApply (List.replicate 3 65)) = 0 ∧
    get_third (cellApply (List.replicate 3 65)) = 0 ∧
    get_count (cellApply (List.replicate 3 65)) = min (3 - 1) 255 :=
  claim_C9 65 3 (by norm_num) (by norm_num) (by norm_num)

end ClaimsHistory

section EncoderLemmas

/-- The returned prediction of an update is the old high bits. -/
theorem update_snd (s b : Nat) : (BitPrediction.update s b).2 = s >>> 8 := rfl

/-- Sequencing a successful first step. -/
theorem bindE_none (st : EncSt) (f : EncSt → EncSt × Option EncError) :
    bindE (st, none) f = f st := rfl

/-- Sequencing a failed first step. -/
theorem bindE_some (st : EncSt) (e : EncError) (f : EncSt → EncSt × Option EncError) :
    bindE (st, some e) f = (st, some e) := rfl

/-- A property preserved by both parts is preserved by the sequence. -/
theorem bindE_pres (P : EncSt → Prop) (r : EncSt × Option EncError)
    (f : EncSt → EncSt × Option EncError) (hr : P r.1)
    (hf : ∀ st, P st → P (f st).1) : P (bindE r f).1 := by
  rcases r with ⟨st, _ | e⟩
  · exact hf st hr
  · exact hr

/-- A successful sequence decomposes into two successful steps. -/
theorem bindE_ok (r : EncSt × Option EncError) (f : EncSt → EncSt × Option EncError)
    (st' : EncSt) (h : bindE r f = (st', none)) :
    r = (r.1, none) ∧ f r.1 = (st', none) := by
  rcases r with ⟨st, _ | e⟩
  · exact ⟨rfl, h⟩
  · rw [bindE_some] at h
    exact absurd (congrArg Prod.snd h) (by simp)

/-- `BitEncoder::bit` always records exactly its own call in the trace. -/
theorem encBit_acts (st : EncSt) (c b : Nat) :
    (encBit st c b).1.acts = st.acts ++ [(c, b)] := by
  unfold encBit
  dsimp only
  split_ifs <;> rfl

/-- `BitEncoder::bit` never touches the context map or the previous
byte or the hash. -/
theorem encBit_model (st : EncSt) (c b : Nat) :
    (encBit st c b).1.cells = st.cells ∧ (encBit st c b).1.last_byte = st.last_byte ∧
      (encBit st c b).1.hash_value = st.hash_value := by
  unfold encBit
  dsimp only
  split_ifs <;> exact ⟨rfl, rfl, rfl⟩

/-- `BitEncoder::bit` preserves the byte-packing invariant of the coder,
whether it succeeds or stops at an assertion. -/
theorem encBit_inv (st : EncSt) (c b : Nat) (h : CoderInv st.coder) :
    CoderInv (encBit st c b).1.coder := by
  unfold encBit
  dsimp only
  split_ifs <;> first | exact h | exact flush_bit_inv _ h

/-- On success, `BitEncoder::bit` narrows the range exactly as the source
writes it: `mid = low + delta + (1 - bit)`, the new `high` is `mid` when
`bit = 1`, and the new `low` is `mid` when `bit = 0`, followed by the
renormalization loop. -/
theorem encBit_ok_coder (st : EncSt) (c b : Nat) (hb : b ≤ 1)
    (h : (encBit st c b).2 = none) :
    (encBit st c b).1.coder =
      flush_bit (if b = 1 then
        { st.coder with high := st.coder.low +
            (st.coder.high - st.coder.low) * (st.states c >>> 8) / 2 ^ 24 + (1 - b) }
      else
        { st.coder with low := st.coder.low +
            (st.coder.high - st.coder.low) * (st.states c >>> 8) / 2 ^ 24 + (1 - b) }) := by
  interval_cases b <;>
    (unfold encBit at h ⊢
     simp only [update_snd] at h ⊢
     split_ifs at h ⊢ <;> simp_all)

end EncoderLemmas

section EncoderPlumbing

/-- `BitEncoder::byte` preserves the byte-packing invariant. -/
theorem encByte_inv (st : EncSt) (c byte : Nat) (h : CoderInv st.coder) :
    CoderInv (encByte st c byte).1.coder := by
  unfold encByte
  dsimp only
  refine bindE_pres (fun s => CoderInv s.coder) _ _ (encBit_inv _ _ _ h) fun s hs => ?_
  refine bindE_pres (fun s => CoderInv s.coder) _ _ (encBit_inv _ _ _ hs) fun s hs => ?_
  refine bindE_pres (fun s => CoderInv s.coder) _ _ (encBit_inv _ _ _ hs) fun s hs => ?_
  refine bindE_pres (fun s => CoderInv s.coder) _ _ (encBit_inv _ _ _ hs) fun s hs => ?_
  refine bindE_pres (fun s => CoderInv s.coder) _ _ (encBit_inv _ _ _ hs) fun s hs => ?_
  refine bindE_pres (fun s => CoderInv s.coder) _ _ (encBit_inv _ _ _ hs) fun s hs => ?_
  refine bindE_pres (fun s => CoderInv s.coder) _ _ (encBit_inv _ _ _ hs) fun s hs => ?_
  exact encBit_inv _ _ _ hs

/-- `BitEncoder::bit` keeps the Rust-type ranges of the model fields. -/
theorem encBit_StInv (st : EncSt) (c b : Nat) (h : StInv st) : StInv (encBit st c b).1 := by
  obtain ⟨hm1, hm2, _⟩ := encBit_model st c b
  exact ⟨hm1 ▸ h.1, hm2 ▸ h.2⟩

/-- `BitEncoder::byte` keeps the Rust-type ranges of the model fields. -/
theorem encByte_StInv (st : EncSt) (c byte : Nat) (h : StInv st) : StInv (encByte st c byte).1 := by
  unfold encByte
  dsimp only
  refine bindE_pres (fun s => StInv s) _ _ (encBit_StInv _ _ _ h) fun s hs => ?_
  refine bindE_pres (fun s => StInv s) _ _ (encBit_StInv _ _ _ hs) fun s hs => ?_
  refine bindE_pres (fun s => StInv s) _ _ (encBit_StInv _ _ _ hs) fun s hs => ?_
  refine bindE_pres (fun s => StInv s) _ _ (encBit_StInv _ _ _ hs) fun s hs => ?_
  refine bindE_pres (fun s => StInv s) _ _ (encBit_StInv _ _ _ hs) fun s hs => ?_
  refine bindE_pres (fun s => StInv s) _ _ (encBit_StInv _ _ _ hs) fun s hs => ?_
  refine bindE_pres (fun s => StInv s) _ _ (encBit_StInv _ _ _ hs) fun s hs => ?_
  exact encBit_StInv _ _ _ hs

/-- The context-map update keeps the Rust-type ranges of the model
fields. -/
theorem ctxUpdate_StInv (st : EncSt) (b : Nat) (hb : b < 256) (h : StInv st) :
    StInv (ctxUpdate st b).1 := by
  obtain ⟨h1, h2⟩ := h
  unfold ctxUpdate StInv
  dsimp only
  constructor
  · intro i
    by_cases hi : i = st.hash_value
    · rw [if_pos hi]
      exact update_match_lt _ _ (h1 _) hb
    · rw [if_neg hi]
      exact h1 i
  · exact hb

/-- The context-map update leaves the coder alone. -/
theorem ctxUpdate_coder (st : EncSt) (b : Nat) : (ctxUpdate st b).1.coder = st.coder := rfl

/-- The context-map update leaves the trace alone. -/
theorem ctxUpdate_acts (st : EncSt) (b : Nat) : (ctxUpdate st b).1.acts = st.acts := rfl

/-- A loop iteration preserves the byte-packing invariant. -/
theorem encodeStep_inv (st : EncSt) (b : Nat) (h : CoderInv st.coder) :
    CoderInv (encodeStep st b).1.coder := by
  unfold encodeStep
  dsimp only
  have hc : CoderInv (ctxUpdate st b).1.coder := by rw [ctxUpdate_coder]; exact h
  cases hm : (ctxUpdate st b).2 <;> dsimp only
  · exact encBit_inv _ _ _ hc
  · refine bindE_pres (fun s => CoderInv s.coder) _ _ (encBit_inv _ _ _ hc) fun s hs => ?_
    refine bindE_pres (fun s => CoderInv s.coder) _ _ (encBit_inv _ _ _ hs) fun s hs => ?_
    exact encBit_inv _ _ _ hs
  · refine bindE_pres (fun s => CoderInv s.coder) _ _ (encBit_inv _ _ _ hc) fun s hs => ?_
    refine bindE_pres (fun s => CoderInv s.coder) _ _ (encBit_inv _ _ _ hs) fun s hs => ?_
    exact encBit_inv _ _ _ hs
  · refine bindE_pres (fun s => CoderInv s.coder) _ _ (encBit_inv _ _ _ hc) fun s hs => ?_
    refine bindE_pres (fun s => CoderInv s.coder) _ _ (encBit_inv _ _ _ hs) fun s hs => ?_
    exact encByte_inv _ _ _ hs

/-- A loop iteration keeps the Rust-type ranges of the model fields. -/
theorem encodeStep_StInv (st : EncSt) (b : Nat) (hb : b < 256) (h : StInv st) :
    StInv (encodeStep st b).1 := by
  unfold encodeStep
  dsimp only
  have hc : StInv (ctxUpdate st b).1 := ctxUpdate_StInv st b hb h
  cases hm : (ctxUpdate st b).2 <;> dsimp only
  · exact encBit_StInv _ _ _ hc
  · refine bindE_pres (fun s => StInv s) _ _ (encBit_StInv _ _ _ hc) fun s hs => ?_
    refine bindE_pres (fun s => StInv s) _ _ (encBit_StInv _ _ _ hs) fun s hs => ?_
    exact encBit_StInv _ _ _ hs
  · refine bindE_pres (fun s => StInv s) _ _ (encBit_StInv _ _ _ hc) fun s hs => ?_
    refine bindE_pres (fun s => StInv s) _ _ (encBit_StInv _ _ _ hs) fun s hs => ?_
    exact encBit_StInv _ _ _ hs
  · refine bindE_pres (fun s => StInv s) _ _ (encBit_StInv _ _ _ hc) fun s hs => ?_
    refine bindE_pres (fun s => StInv s) _ _ (encBit_StInv _ _ _ hs) fun s hs => ?_
    exact encByte_StInv _ _ _ hs

end EncoderPlumbing

section EncodeRuns

/-- On success, the sentinel iteration ends with one flush over a coder
that satisfied the byte-packing invariant. -/
theorem encodeFinish_len (st st' : EncSt) (hinv : CoderInv st.coder)
    (h : encodeFinish st = (st', none)) :
    st'.coder.out.length = (st'.coder.shifts + 1 + 7) / 8 := by
  unfold encodeFinish at h
  dsimp only at h
  obtain ⟨hr1, h⟩ := bindE_ok _ _ _ h
  try dsimp only at h
  obtain ⟨hr2, h⟩ := bindE_ok _ _ _ h
  try dsimp only at h
  obtain ⟨hr3, h⟩ := bindE_ok _ _ _ h
  try dsimp only at h
  have hst' := congrArg Prod.fst h
  dsimp only at hst'
  have hs3 : CoderInv (encByte (encBit (encBit st (first_context st) 1).1 (second_context st) 0).1
      (literal_context st) (get_first (st.cells st.hash_value))).1.coder :=
    encByte_inv _ _ _ (encBit_inv _ _ _ (encBit_inv _ _ _ hinv))
  obtain ⟨hl, hsft⟩ := encFlush_len _ hs3
  rw [← hst']
  dsimp only
  rw [hsft, hl]

/-- On success, the whole encode run satisfies the output-byte formula. -/
theorem encode_len (input : List Nat) :
    ∀ st st', CoderInv st.coder → encode st input = (st', none) →
      st'.coder.out.length = (st'.coder.shifts + 1 + 7) / 8 := by
  induction input with
  | nil =>
    intro st st' hinv h
    exact encodeFinish_len st st' hinv h
  | cons b rest ih =>
    intro st st' hinv h
    rw [encode] at h
    obtain ⟨hr, h⟩ := bindE_ok _ _ _ h
    try dsimp only at h
    exact ih _ _ (encodeStep_inv st b hinv) h

/-- `BitEncoder::bit` keeps the trace bounded when its own context is. -/
theorem encBit_bounded (st : EncSt) (c b : Nat) (h1 : ActsBounded st) (h2 : c < numStates) :
    ActsBounded (encBit st c b).1 := by
  unfold ActsBounded at *
  intro p hp
  rw [encBit_acts] at hp
  rcases List.mem_append.mp hp with hx | hx
  · exact h1 p hx
  · have : p = (c, b) := by simpa using hx
    rw [this]
    exact h2

/-- `BitEncoder::byte` keeps the trace bounded: all eight of its contexts
lie within 255 of the base context. -/
theorem encByte_bounded (st : EncSt) (c byte : Nat) (h1 : ActsBounded st)
    (hc : c + 255 < numStates) (hbyte : byte < 256) : ActsBounded (encByte st c byte).1 := by
  have hh : (byte >>> 4) ||| 16 < 32 := by
    have h4 : byte >>> 4 < 32 := by
      rw [Nat.shiftRight_eq_div_pow]
      omega
    exact Nat.or_lt_two_pow (n := 5) h4 (by norm_num)
  have hl : (byte &&& 15) ||| 16 < 32 := by
    have h4 : byte &&& 15 < 32 := by
      have h5 := Nat.and_pow_two_sub_one_eq_mod byte 4
      norm_num at h5
      omega
    exact Nat.or_lt_two_pow (n := 5) h4 (by norm_num)
  have e1 : ((byte >>> 4) ||| 16) >>> 3 ≤ 3 := by
    rw [Nat.shiftRight_eq_div_pow]
    omega
  have e2 : ((byte >>> 4) ||| 16) >>> 2 ≤ 7 := by
    rw [Nat.shiftRight_eq_div_pow]
    omega
  have e3 : ((byte >>> 4) ||| 16) >>> 1 ≤ 15 := by
    rw [Nat.shiftRight_eq_div_pow]
    omega
  have f1 : ((byte &&& 15) ||| 16) >>> 3 ≤ 3 := by
    rw [Nat.shiftRight_eq_div_pow]
    omega
  have f2 : ((byte &&& 15) ||| 16) >>> 2 ≤ 7 := by
    rw [Nat.shiftRight_eq_div_pow]
    omega
  have f3 : ((byte &&& 15) ||| 16) >>> 1 ≤ 15 := by
    rw [Nat.shiftRight_eq_div_pow]
    omega
  unfold encByte
  dsimp only
  refine bindE_pres ActsBounded _ _ (encBit_bounded _ _ _ h1 (by omega)) fun s hs => ?_
  refine bindE_pres ActsBounded _ _ (encBit_bounded _ _ _ hs (by omega)) fun s hs => ?_
  refine bindE_pres ActsBounded _ _ (encBit_bounded _ _ _ hs (by omega)) fun s hs => ?_
  refine bindE_pres ActsBounded _ _ (encBit_bounded _ _ _ hs (by omega)) fun s hs => ?_
  refine bindE_pres ActsBounded _ _ (encBit_bounded _ _ _ hs (by omega)) fun s hs => ?_
  refine bindE_pres ActsBounded _ _ (encBit_bounded _ _ _ hs (by omega)) fun s hs => ?_
  refine bindE_pres ActsBounded _ _ (encBit_bounded _ _ _ hs (by omega)) fun s hs => ?_
  exact encBit_bounded _ _ _ hs (by omega)

/-- The loop-top base context never exceeds `1279 * 1024`. -/
theorem bit_context_le (st : EncSt) (h : StInv st) : bit_context st ≤ 1279 * 1024 := by
  obtain ⟨h1, h2⟩ := h
  unfold bit_context
  have hv := h1 st.hash_value
  have hcnt : get_count (st.cells st.hash_value) ≤ 255 := by
    unfold get_count
    rw [Nat.shiftRight_eq_div_pow]
    omega
  dsimp only
  split_ifs with h4
  · have hb : (st.last_byte <<< 2) ||| get_count (st.cells st.hash_value) < 1024 := by
      have hsl : st.last_byte <<< 2 < 2 ^ 10 := by
        rw [Nat.shiftLeft_eq]
        omega
      exact Nat.or_lt_two_pow (n := 10) hsl (by omega)
    omega
  · omega

/-- The four derived sub-contexts stay inside the predictor table, with
room for the literal subtree. -/
theorem contexts_bounded (st : EncSt) (h : StInv st) :
    first_context st < numStates ∧ second_context st < numStates ∧
      third_context st < numStates ∧ literal_context st + 255 < numStates := by
  have hbc := bit_context_le st h
  have hns : numStates = 1310720 := by norm_num [numStates]
  have hf : get_first (st.cells st.hash_value) < 256 := Nat.mod_lt _ (by norm_num)
  have hs : (get_second (st.cells st.hash_value) + get_third (st.cells st.hash_value)) % 256 < 256 :=
    Nat.mod_lt _ (by norm_num)
  have ht : (get_second (st.cells st.hash_value) * 2 + 256 - get_third (st.cells st.hash_value)) % 256 < 256 :=
    Nat.mod_lt _ (by norm_num)
  unfold first_context second_context third_context literal_context
  omega

/-- The context-map update leaves the trace bounded. -/
theorem ctxUpdate_bounded (st : EncSt) (b : Nat) (h : ActsBounded st) :
    ActsBounded (ctxUpdate st b).1 := by
  unfold ActsBounded at *
  rw [ctxUpdate_acts]
  exact h

/-- A loop iteration keeps the trace bounded. -/
theorem encodeStep_bounded (st : EncSt) (b : Nat) (hst : StInv st) (hb : b < 256)
    (hA : ActsBounded st) : ActsBounded (encodeStep st b).1 := by
  obtain ⟨hc1, hc2, hc3, hc4⟩ := contexts_bounded st hst
  unfold encodeStep
  dsimp only
  have hA2 : ActsBounded (ctxUpdate st b).1 := ctxUpdate_bounded st b hA
  cases hm : (ctxUpdate st b).2 <;> dsimp only
  · exact encBit_bounded _ _ _ hA2 hc1
  · refine bindE_pres ActsBounded _ _ (encBit_bounded _ _ _ hA2 hc1) fun s hs => ?_
    refine bindE_pres ActsBounded _ _ (encBit_bounded _ _ _ hs hc2) fun s hs => ?_
    exact encBit_bounded _ _ _ hs hc3
  · refine bindE_pres ActsBounded _ _ (encBit_bounded _ _ _ hA2 hc1) fun s hs => ?_
    refine bindE_pres ActsBounded _ _ (encBit_bounded _ _ _ hs hc2) fun s hs => ?_
    exact encBit_bounded _ _ _ hs hc3
  · refine bindE_pres ActsBounded _ _ (encBit_bounded _ _ _ hA2 hc1) fun s hs => ?_
    refine bindE_pres ActsBounded _ _ (encBit_bounded _ _ _ hs hc2) fun s hs => ?_
    exact encByte_bounded _ _ _ hs (by omega) hb

/-- The sentinel iteration keeps the trace bounded. -/
theorem encodeFinish_bounded (st : EncSt) (hst : StInv st) (hA : ActsBounded st) :
    ActsBounded (encodeFinish st).1 := by
  obtain ⟨hc1, hc2, _, hc4⟩ := contexts_bounded st hst
  have hf : get_first (st.cells st.hash_value) < 256 := Nat.mod_lt _ (by norm_num)
  unfold encodeFinish
  dsimp only
  refine bindE_pres ActsBounded _ _ (encBit_bounded _ _ _ hA hc1) fun s hs => ?_
  refine bindE_pres ActsBounded _ _ (encBit_bounded _ _ _ hs hc2) fun s hs => ?_
  refine bindE_pres ActsBounded _ _ (encByte_bounded _ _ _ hs (by omega) hf) fun s hs => ?_
  exact hs

/-- The sentinel iteration keeps the Rust-type ranges of the model
fields. -/
theorem encodeFinish_StInv (st : EncSt) (hst : StInv st) : StInv (encodeFinish st).1 := by
  unfold encodeFinish
  dsimp only
  refine bindE_pres (fun s => StInv s) _ _ (encBit_StInv _ _ _ hst) fun s hs => ?_
  refine bindE_pres (fun s => StInv s) _ _ (encBit_StInv _ _ _ hs) fun s hs => ?_
  refine bindE_pres (fun s => StInv s) _ _ (encByte_StInv _ _ _ hs) fun s hs => ?_
  exact hs

/-- The whole encode run keeps the Rust-type ranges and the trace bounds,
whether it finishes or stops at an assertion. -/
theorem encode_good (input : List Nat) :
    ∀ st, (∀ b ∈ input, b < 256) → StInv st → ActsBounded st →
      StInv (encode st input).1 ∧ ActsBounded (encode st input).1 := by
  induction input with
  | nil =>
    intro st _ hst hA
    exact ⟨encodeFinish_StInv st hst, encodeFinish_bounded st hst hA⟩
  | cons b rest ih =>
    intro st hin hst hA
    have hb : b < 256 := hin b (by simp)
    have hrest : ∀ x ∈ rest, x < 256 := fun x hx => hin x (by simp [hx])
    rw [encode]
    exact bindE_pres (fun s => StInv s ∧ ActsBounded s) _ _
      ⟨encodeStep_StInv st b hb hst, encodeStep_bounded st b hst hb hA⟩
      (fun s hs => ih s hrest hs.1 hs.2)

end EncodeRuns

section EncodeActs

/-- On success, `BitEncoder::byte` records exactly its eight calls. -/
theorem encByte_ok_acts (st : EncSt) (c byte : Nat) (st' : EncSt)
    (h : encByte st c byte = (st', none)) : st'.acts = st.acts ++ byteActs c byte := by
  unfold encByte at h
  dsimp only at h
  obtain ⟨h1, h⟩ := bindE_ok _ _ _ h
  try dsimp only at h
  obtain ⟨h2, h⟩ := bindE_ok _ _ _ h
  try dsimp only at h
  obtain ⟨h3, h⟩ := bindE_ok _ _ _ h
  try dsimp only at h
  obtain ⟨h4, h⟩ := bindE_ok _ _ _ h
  try dsimp only at h
  obtain ⟨h5, h⟩ := bindE_ok _ _ _ h
  try dsimp only at h
  obtain ⟨h6, h⟩ := bindE_ok _ _ _ h
  try dsimp only at h
  obtain ⟨h7, h⟩ := bindE_ok _ _ _ h
  try dsimp only at h
  have hst' := congrArg Prod.fst h
  dsimp only at hst'
  rw [← hst']
  simp only [encBit_acts, byteActs, List.append_assoc, List.cons_append, List.nil_append]

/-- On success, the sentinel iteration records exactly the EOF calls:
bit 1 under `first_context`, bit 0 under `second_context`, then the eight
calls of coding the byte `first` under `literal_context`. -/
theorem encodeFinish_ok_acts (st st' : EncSt) (h : encodeFinish st = (st', none)) :
    st'.acts = st.acts ++ (first_context st, 1) :: (second_context st, 0) ::
      byteActs (literal_context st) (get_first (st.cells st.hash_value)) := by
  unfold encodeFinish at h
  dsimp only at h
  obtain ⟨h1, h⟩ := bindE_ok _ _ _ h
  try dsimp only at h
  obtain ⟨h2, h⟩ := bindE_ok _ _ _ h
  try dsimp only at h
  obtain ⟨h3, h⟩ := bindE_ok _ _ _ h
  try dsimp only at h
  have hst' := congrArg Prod.fst h
  dsimp only at hst'
  have ha := encByte_ok_acts _ _ _ _ h3
  rw [← hst']
  dsimp only
  rw [ha, encBit_acts, encBit_acts]
  simp only [List.append_assoc, List.cons_append, List.nil_append]

end EncodeActs

section ClaimsEncoder

/-- Claim C1, counterexample: from `low = 1`, `high = 2 ^ 64 - 1` and a
fresh context (prediction `2 ^ 23`), coding bit 1 gives
`mid = 2 ^ 63`; the code sets `high` to `mid` (no renormalization fires),
leaving `low = 1`, whereas the claim says bit 1 sets `low` to `mid`
(which would leave `low = 2 ^ 63` and `high = 2 ^ 64 - 1`). -/
theorem claim_C1_counterexample :
    (encBit { EncSt.init with coder := { Coder.init with low := 1 } } 0 1).1.coder.low = 1 ∧
    (encBit { EncSt.init with coder := { Coder.init with low := 1 } } 0 1).1.coder.high = 2 ^ 63 ∧
    ¬((encBit { EncSt.init with coder := { Coder.init with low := 1 } } 0 1).1.coder.low = 2 ^ 63 ∧
      (encBit { EncSt.init with coder := { Coder.init with low := 1 } } 0 1).1.coder.high = 2 ^ 64 - 1) := by
  refine ⟨by decide, by decide, by decide⟩

/-- Claim C1 (corrected): in every bit-coding step, with
`delta = ((high - low) * p) >> 24` and `mid = low + delta + (1 - bit)`,
the coder sets `high` to `mid` when `bit = 1` and `low` to `mid` when
`bit = 0` (the claim has the two assignments swapped), after which the
renormalization loop runs. -/
theorem claim_C1 (st : EncSt) (context bit : Nat) (hb : bit ≤ 1)
    (h : (encBit st context bit).2 = none) :
    (encBit st context bit).1.coder =
      flush_bit (if bit = 1 then
        { st.coder with high := st.coder.low +
            (st.coder.high - st.coder.low) * (st.states context >>> 8) / 2 ^ 24 + (1 - bit) }
      else
        { st.coder with low := st.coder.low +
            (st.coder.high - st.coder.low) * (st.states context >>> 8) / 2 ^ 24 + (1 - bit) }) :=
  encBit_ok_coder st context bit hb h

/-- Claim C1, witness: the first bit of an encode from the initial state. -/
theorem claim_C1_witness :
    (encBit EncSt.init 0 1).1.coder =
      flush_bit (if 1 = 1 then
        { EncSt.init.coder with high := EncSt.init.coder.low +
            (EncSt.init.coder.high - EncSt.init.coder.low) * (EncSt.init.states 0 >>> 8) / 2 ^ 24 + (1 - 1) }
      else
        { EncSt.init.coder with low := EncSt.init.coder.low +
            (EncSt.init.coder.high - EncSt.init.coder.low) * (EncSt.init.states 0 >>> 8) / 2 ^ 24 + (1 - 1) }) :=
  claim_C1 EncSt.init 0 1 (by norm_num) (by decide)

/-- Claim C4: the invariant is violated on a concrete 26-byte input; the
`mid >= low && mid < high` assertion of `BitEncoder::bit` fails (a panic
in the Rust build), so the failure branch is reachable from the initial
state. -/
theorem claim_C4 : (encode EncSt.init failingInput).2 = some EncError.midRange := by decide

/-- Claim C5 (confirmed): whenever the byte source is exhausted, the
encoder issues exactly the EOF sentinel calls — bit 1 under
`first_context`, bit 0 under `second_context`, then the byte `first`
under `literal_context` — followed by the final flush; on empty input
from the initial state this succeeds and produces the concrete trace
(contexts 0 and 256, then the literal subtree at 768 coding byte 0) and
two output bytes. -/
theorem claim_C5 :
    (∀ st, (encode st []).2 = none →
      (encode st []).1.acts = st.acts ++ (first_context st, 1) :: (second_context st, 0) ::
        byteActs (literal_context st) (get_first (st.cells st.hash_value))) ∧
    (encode EncSt.init []).2 = none ∧
    (encode EncSt.init []).1.acts =
      [(0, 1), (256, 0), (769, 0), (770, 0), (772, 0), (776, 0), (784, 0), (785, 0), (787, 0), (791, 0)] ∧
    (encode EncSt.init []).1.coder.out = [127, 192] := by
  refine ⟨?_, by decide, by decide, by decide⟩
  intro st h
  rcases hE : encode st [] with ⟨s, e⟩
  rw [hE] at h
  dsimp only at h
  subst h
  have hfin : encodeFinish st = (s, none) := hE
  have ha := encodeFinish_ok_acts st s hfin
  exact ha

/-- Claim C5, witness: the sentinel trace of the empty input, through the
general statement. -/
theorem claim_C5_witness :
    (encode EncSt.init []).1.acts = EncSt.init.acts ++
      (first_context EncSt.init, 1) :: (second_context EncSt.init, 0) ::
        byteActs (literal_context EncSt.init) (get_first (EncSt.init.cells EncSt.init.hash_value)) :=
  claim_C5.1 EncSt.init (by decide)

/-- Claim C6 (confirmed): on every successful encode the number of bytes
written equals `ceil((R + 1) / 8)` where `R` counts the renormalization
shifts and the added 1 is the final flush bit. -/
theorem claim_C6 (input : List Nat) (st' : EncSt)
    (h : encode EncSt.init input = (st', none)) :
    st'.coder.out.length = (st'.coder.shifts + 1 + 7) / 8 :=
  encode_len input EncSt.init st' ⟨rfl, rfl⟩ h

/-- Claim C6, witness on the empty input. -/
theorem claim_C6_witness :
    (encode EncSt.init []).1.coder.out.length =
      ((encode EncSt.init []).1.coder.shifts + 1 + 7) / 8 :=
  claim_C6 [] (encode EncSt.init []).1 (by rfl)

/-- Claim C10 (confirmed): on every input of bytes, every context index
passed to `BitEncoder::bit` during encode stays below the predictor table
size `(1024 + 256) * 1024`, so the states-array access never goes out of
bounds. -/
theorem claim_C10 (input : List Nat) (hin : ∀ b ∈ input, b < 256) :
    ∀ context bit, (context, bit) ∈ (encode EncSt.init input).1.acts → context < numStates := by
  intro context bit hmem
  have hst : StInv EncSt.init := by
    constructor
    · intro i
      show (0 : Nat) < 2 ^ 32
      norm_num
    · show (0 : Nat) < 256
      norm_num
  have hA : ActsBounded EncSt.init := by
    intro p hp
    exact absurd hp (List.not_mem_nil p)
  exact (encode_good input EncSt.init hin hst hA).2 (context, bit) hmem

/-- Claim C10, witness on a two-byte input. -/
theorem claim_C10_witness : (0 : Nat) < numStates :=
  claim_C10 [72, 105] (by decide) 0 1 (by decide)

end ClaimsEncoder

end Srx
